import Mathlib

/-!
Verification of the worker-pool demo repository.

This file gives a shallow embedding of the two parts of the repository the
specification's claims concern:

* the pure task-processing pipeline `Task.Process` from
  `worker/internal/task/task.go`;
* the lifecycle of the optimized worker pool (`OptimizedWorker`): start,
  stop, cancellation, helper and monitor loops, and task submission.

Go's `int` is 64-bit and wraps on overflow, so every arithmetic step in
`Process` is reduced into the signed 64-bit range by `wrap64`.
-/

namespace Demo

/-- Reduction of an integer into the signed 64-bit range, modelling Go's
wrapping `int` arithmetic. -/
def wrap64 (x : Int) : Int := (x + 2 ^ 63) % 2 ^ 64 - 2 ^ 63

/-- `OperationSum` from task.go. `OperationType` is a Go `int` (`iota`
starting at 0), so values outside the four declared constants are
representable; they hit the `default` arm of `Process`. -/
def OperationSum : Int := 0

/-- `OperationMultiply` from task.go. -/
def OperationMultiply : Int := 1

/-- `OperationSquare` from task.go. -/
def OperationSquare : Int := 2

/-- `OperationFilter` from task.go. -/
def OperationFilter : Int := 3

/-- `Task` from task.go: an id, an integer payload and an operation tag. -/
structure Task where
  ID : Int
  Data : List Int
  Operation : Int
deriving DecidableEq, Repr

/-- The dynamically typed `Result.Value` field (an empty Go interface),
represented as a tagged union: the only shapes `Process` produces are an
integer, an integer slice, or nil. -/
inductive Value where
  | int : Int → Value
  | list : List Int → Value
  | null : Value
deriving DecidableEq, Repr

/-- `Result` from task.go. -/
structure Result where
  TaskID : Int
  Value : Value
  Info : String
deriving DecidableEq, Repr

/-- The parity test `v % 2 == 0` from the `OperationFilter` arm of
`Process`. Go's `%` is truncated remainder, which is `Int.tmod`. -/
def goEven (v : Int) : Bool := v.tmod 2 == 0

/-- `Task.Process` from task.go: dispatch on the operation tag. The Go
`switch` on an `int` is an if-chain over the four constants with a
`default` arm. Each arithmetic step wraps (Go `int` overflow); the `fmt.Sprintf`
info strings are modelled by string concatenation. `Process` is total: it
always returns a `Result`, never an error. -/
def Task.Process (t : Task) : Result :=
  if t.Operation = OperationSum then
    { TaskID := t.ID
      Value := .int (t.Data.foldl (fun s v => wrap64 (s + v)) 0)
      Info := "Sum of " ++ toString t.Data.length ++ " numbers" }
  else if t.Operation = OperationMultiply then
    { TaskID := t.ID
      Value := .int (t.Data.foldl (fun p v => wrap64 (p * v)) 1)
      Info := "Product of " ++ toString t.Data.length ++ " numbers" }
  else if t.Operation = OperationSquare then
    { TaskID := t.ID
      Value := .list (t.Data.map (fun v => wrap64 (v * v)))
      Info := "Squared " ++ toString t.Data.length ++ " numbers" }
  else if t.Operation = OperationFilter then
    { TaskID := t.ID
      Value := .list (t.Data.filter goEven)
      Info := "Filtered " ++ toString (t.Data.filter goEven).length ++
        " even numbers from " ++ toString t.Data.length }
  else
    { TaskID := t.ID
      Value := .null
      Info := "Unknown operation" }

/-- Go's `v % 2 == 0` agrees with mathematical evenness on every integer. -/
theorem goEven_eq_even (v : Int) : goEven v = decide (Even v) := by
  have hiff : v.tmod 2 = 0 ↔ Even v := by
    constructor
    · intro hz
      obtain ⟨c, hc⟩ := Int.dvd_of_tmod_eq_zero hz
      exact ⟨c, by omega⟩
    · intro he
      obtain ⟨k, hk⟩ := he
      exact Int.tmod_eq_zero_of_dvd (⟨k, by omega⟩ : (2 : Int) ∣ v)
  rw [Bool.eq_iff_iff]
  simp [goEven, hiff]

/-- C6: `Process` satisfies the round-trip equations:
`Process(Task(Sum, [1,2,3,4])).value = 10`,
`Process(Task(Square, [1,2,3])).value = [1,4,9]`, and
`Process(Task(Filter, [1,2,3,4,5,6])).value = [2,4,6]`. -/
theorem process_round_trip :
    (Task.Process ⟨1, [1, 2, 3, 4], OperationSum⟩).Value = .int 10 ∧
    (Task.Process ⟨2, [1, 2, 3], OperationSquare⟩).Value = .list [1, 4, 9] ∧
    (Task.Process ⟨3, [1, 2, 3, 4, 5, 6], OperationFilter⟩).Value = .list [2, 4, 6] := by
  refine ⟨?_, ?_, ?_⟩ <;> decide

/-- C7: for every operation tag that is none of Sum, Multiply, Square,
Filter, `Process` returns a `Result` with a null value and the explanatory
info string `"Unknown operation"`; since `Process` is a total function into
`Result`, this is a normal return, not a propagated error. -/
theorem process_unknown_operation (t : Task)
    (h : t.Operation ≠ OperationSum ∧ t.Operation ≠ OperationMultiply ∧
      t.Operation ≠ OperationSquare ∧ t.Operation ≠ OperationFilter) :
    (Task.Process t).Value = .null ∧ (Task.Process t).Info = "Unknown operation" ∧
    (Task.Process t).Info ≠ "" := by
  obtain ⟨h1, h2, h3, h4⟩ := h
  simp [Task.Process, h1, h2, h3, h4]

/-- C7 witness: the unknown tag 9 yields a null value and info text. -/
theorem process_unknown_operation_witness :
    (Task.Process ⟨7, [1, 2], 9⟩).Value = .null ∧
    (Task.Process ⟨7, [1, 2], 9⟩).Info = "Unknown operation" ∧
    (Task.Process ⟨7, [1, 2], 9⟩).Info ≠ "" :=
  process_unknown_operation ⟨7, [1, 2], 9⟩ (by refine ⟨?_, ?_, ?_, ?_⟩ <;> decide)

/-- C8: on a Filter task, `Process` returns exactly the even-valued
elements of the input, in their original relative order (the result is the
sublist of even elements), and the result length is at most the input
length. -/
theorem process_filter_even (t : Task) (h : t.Operation = OperationFilter) :
    ∃ l : List Int,
      (Task.Process t).Value = .list l ∧
      l = t.Data.filter (fun v => decide (Even v)) ∧
      List.Sublist l t.Data ∧
      l.length ≤ t.Data.length := by
  refine ⟨t.Data.filter goEven, ?_, ?_, List.filter_sublist _, List.length_filter_le _ _⟩
  · simp [Task.Process, h, OperationFilter, OperationSum, OperationMultiply, OperationSquare]
  · exact List.filter_congr fun v _ => goEven_eq_even v

/-- C8 witness: the filter claim instantiated on data `[1,2,3,4,5,6]`. -/
theorem process_filter_even_witness :
    ∃ l : List Int,
      (Task.Process ⟨3, [1, 2, 3, 4, 5, 6], OperationFilter⟩).Value = .list l ∧
      l = [1, 2, 3, 4, 5, 6].filter (fun v => decide (Even v)) ∧
      List.Sublist l [1, 2, 3, 4, 5, 6] ∧
      l.length ≤ ([1, 2, 3, 4, 5, 6] : List Int).length :=
  process_filter_even ⟨3, [1, 2, 3, 4, 5, 6], OperationFilter⟩ rfl

/-- C9: every branch of `Process`, the unknown-tag branch included, copies
the input task's `ID` into the result's `TaskID`. -/
theorem process_preserves_task_id (t : Task) : (Task.Process t).TaskID = t.ID := by
  unfold Task.Process
  split
  · rfl
  split
  · rfl
  split
  · rfl
  split <;> rfl

/-- C10: `Process` is total on empty data and returns the conventional
identities: Sum gives 0, Multiply gives 1 (the empty product), Square and
Filter give the empty sequence, each with a non-empty info string. -/
theorem process_empty_data (id : Int) :
    (Task.Process ⟨id, [], OperationSum⟩).Value = .int 0 ∧
    (Task.Process ⟨id, [], OperationMultiply⟩).Value = .int 1 ∧
    (Task.Process ⟨id, [], OperationSquare⟩).Value = .list [] ∧
    (Task.Process ⟨id, [], OperationFilter⟩).Value = .list [] ∧
    (Task.Process ⟨id, [], OperationSum⟩).Info ≠ "" ∧
    (Task.Process ⟨id, [], OperationMultiply⟩).Info ≠ "" ∧
    (Task.Process ⟨id, [], OperationSquare⟩).Info ≠ "" ∧
    (Task.Process ⟨id, [], OperationFilter⟩).Info ≠ "" := by
  refine ⟨?_, ?_, ?_, ?_, ?_, ?_, ?_, ?_⟩ <;>
    simp [Task.Process, OperationSum, OperationMultiply, OperationSquare, OperationFilter] <;>
    decide

end Demo
namespace Demo

/-!
## Lifecycle of the optimized pool (`OptimizedWorker`)

`Start(n)` runs `wg.Add(1)` and then `go ...` for each of the `n` workers,
the monitor and the metrics sampler; each worker likewise runs
`wg.Add(1); go w.helperTask(...)` per processed task. Every spawned
activity runs `defer wg.Done()` and so decrements the group exactly when
it terminates. `Stop()` runs `cancel(); close(taskQueue); wg.Wait()`.

The transition system below records the wait-group counter, the number of
registrations whose activity has not yet begun (`pending`, between the
`Add` and the `go`), and the number of live activities. `wgAdd` requires
that `Stop` has not yet returned: in the source, `Add` is executed either
by `Start` (which precedes `Stop` in the pool's lifecycle) or by a live
worker, and no worker is live once `wg.Wait` has returned.
-/

/-- Abstract state of the optimized pool's activity bookkeeping. -/
structure PoolState where
  wg : Nat
  pending : Nat
  live : Nat
  cancelled : Bool
  queueClosed : Bool
  stopReturned : Bool
deriving DecidableEq, Repr

/-- The pool as constructed by `NewOptimizedWorker`: nothing spawned,
context live, queue open, `Stop` not yet called. -/
def initPool : PoolState := ⟨0, 0, 0, false, false, false⟩

/-- One atomic event in the life of the optimized pool. -/
inductive PoolStep : PoolState → PoolState → Prop
  | wgAdd (s : PoolState) (h : s.stopReturned = false) :
      PoolStep s { s with wg := s.wg + 1, pending := s.pending + 1 }
  | goLaunch (s : PoolState) (h : 0 < s.pending) :
      PoolStep s { s with pending := s.pending - 1, live := s.live + 1 }
  | wgDone (s : PoolState) (h : 0 < s.live) :
      PoolStep s { s with live := s.live - 1, wg := s.wg - 1 }
  | cancelSignal (s : PoolState) :
      PoolStep s { s with cancelled := true }
  | closeQueue (s : PoolState) (h : s.cancelled = true) :
      PoolStep s { s with queueClosed := true }
  | stopReturn (s : PoolState) (hc : s.cancelled = true) (hq : s.queueClosed = true)
      (hw : s.wg = 0) :
      PoolStep s { s with stopReturned := true }

/-- States reachable from the freshly constructed pool. -/
inductive PoolReach : PoolState → Prop
  | init : PoolReach initPool
  | step {s s' : PoolState} : PoolReach s → PoolStep s s' → PoolReach s'

/-- The invariant of the pool bookkeeping: the wait-group counts the
registered-but-unlaunched plus the live activities, and once `Stop` has
returned the counter is zero, cancellation is raised and the queue closed. -/
def PoolInv (s : PoolState) : Prop :=
  s.wg = s.pending + s.live ∧
  (s.stopReturned = true → s.wg = 0 ∧ s.cancelled = true ∧ s.queueClosed = true)

theorem poolStep_preserves_inv {s s' : PoolState} (hstep : PoolStep s s')
    (ih : PoolInv s) : PoolInv s' := by
  obtain ⟨ihwg, ihstop⟩ := ih
  cases hstep with
  | wgAdd h =>
    refine ⟨show s.wg + 1 = s.pending + 1 + s.live by omega, ?_⟩
    intro hs
    rw [show ({ s with wg := s.wg + 1, pending := s.pending + 1 } : PoolState).stopReturned
      = s.stopReturned from rfl, h] at hs
    cases hs
  | goLaunch h =>
    refine ⟨show s.wg = s.pending - 1 + (s.live + 1) by omega, ?_⟩
    intro hs
    exact ihstop hs
  | wgDone h =>
    refine ⟨show s.wg - 1 = s.pending + (s.live - 1) by omega, ?_⟩
    intro hs
    obtain ⟨hw, hc, hq⟩ := ihstop hs
    exact ⟨show s.wg - 1 = 0 by omega, hc, hq⟩
  | cancelSignal =>
    exact ⟨ihwg, fun hs => ⟨(ihstop hs).1, rfl, (ihstop hs).2.2⟩⟩
  | closeQueue h =>
    exact ⟨ihwg, fun hs => ⟨(ihstop hs).1, (ihstop hs).2.1, rfl⟩⟩
  | stopReturn hc hq hw =>
    exact ⟨ihwg, fun _ => ⟨hw, hc, hq⟩⟩

theorem poolReach_inv (s : PoolState) (h : PoolReach s) : PoolInv s := by
  induction h with
  | init => exact ⟨rfl, by intro hs; cases hs⟩
  | step _ hstep ih => exact poolStep_preserves_inv hstep ih

/-- C1: whenever `Stop()` has returned in a run of the optimized pool, the
cancellation was signalled, the task queue was closed, and every activity
registered against the wait-group — workers, monitor, sampler and all
per-task helpers alike — has terminated: none is still live, and none is
still pending launch. -/
theorem stop_returns_after_all_activities (s : PoolState) (hr : PoolReach s)
    (hs : s.stopReturned = true) :
    s.live = 0 ∧ s.pending = 0 ∧ s.cancelled = true ∧ s.queueClosed = true := by
  obtain ⟨hwg, hstop⟩ := poolReach_inv s hr
  obtain ⟨hw, hc, hq⟩ := hstop hs
  exact ⟨by omega, by omega, hc, hq⟩

/-- The pool state at the end of a run in which one activity was
registered, launched and terminated, and `Stop` then returned. -/
def poolStoppedState : PoolState := ⟨0, 0, 0, true, true, true⟩

/-- A concrete run of the optimized pool reaching `poolStoppedState`. -/
theorem poolReach_stopped_example : PoolReach poolStoppedState := by
  have h1 : PoolReach (⟨1, 1, 0, false, false, false⟩ : PoolState) :=
    PoolReach.step PoolReach.init (PoolStep.wgAdd initPool rfl)
  have h2 : PoolReach (⟨1, 0, 1, false, false, false⟩ : PoolState) :=
    PoolReach.step h1 (PoolStep.goLaunch _ (by decide))
  have h3 : PoolReach (⟨0, 0, 0, false, false, false⟩ : PoolState) :=
    PoolReach.step h2 (PoolStep.wgDone _ (by decide))
  have h4 : PoolReach (⟨0, 0, 0, true, false, false⟩ : PoolState) :=
    PoolReach.step h3 (PoolStep.cancelSignal _)
  have h5 : PoolReach (⟨0, 0, 0, true, true, false⟩ : PoolState) :=
    PoolReach.step h4 (PoolStep.closeQueue _ rfl)
  exact PoolReach.step h5 (PoolStep.stopReturn _ rfl rfl rfl)

/-- C1 witness: the claim applied to the concrete run above. -/
theorem stop_returns_after_all_activities_witness :
    poolStoppedState.live = 0 ∧ poolStoppedState.pending = 0 ∧
    poolStoppedState.cancelled = true ∧ poolStoppedState.queueClosed = true :=
  stop_returns_after_all_activities poolStoppedState poolReach_stopped_example rfl

end Demo

namespace Demo

/-!
## Helper and monitor loops (C2)

`helperTask` and `monitor` are both `for` loops around a two-way `select`:
one case receives from `w.ctx.Done()` and returns, the other receives a
ticker tick and performs constant-size bookkeeping (rebuilding a ten-element
check slice, or reading `len(w.results)` into a stats map — both assigned
to throwaway variables). Each loop iteration is embedded as the wakeup the
`select` consumed; a run of the loop is the list of consumed wakeups.

After `Stop()` raises the cancellation, `ctx.Done()` is a closed channel
and is ready at every subsequent `select`, while `ticker.C` has capacity
one, so at most the single already-buffered tick can be consumed before a
`done` wakeup: post-cancellation wakeup lists have at most one `tick`
before the first `done`.
-/

/-- One wakeup of a helper/monitor `select`: the cancellation channel or a
ticker tick. -/
inductive Wake where
  | done : Wake
  | tick : Wake
deriving DecidableEq, Repr

/-- `helperTask` from the optimized worker: returns (`some n`) at its
first `done` wakeup after `n` ticks of bookkeeping; `none` means the
wakeup list was exhausted with the loop still running. -/
def helperTask : List Wake → Option Nat
  | [] => none
  | .done :: _ => some 0
  | .tick :: rest => (helperTask rest).map (· + 1)

/-- `monitor` from the optimized worker: structurally the same loop as
`helperTask` (its per-tick bookkeeping reads the result count under the
mutex and is likewise discarded). -/
def monitor : List Wake → Option Nat
  | [] => none
  | .done :: _ => some 0
  | .tick :: rest => (monitor rest).map (· + 1)

/-- Number of tick wakeups a loop consumes before its first `done`. -/
def ticksBeforeDone : List Wake → Nat
  | [] => 0
  | .done :: _ => 0
  | .tick :: rest => ticksBeforeDone rest + 1

theorem helperTask_terminates_at_done (s : List Wake) (hd : Wake.done ∈ s) :
    helperTask s = some (ticksBeforeDone s) := by
  induction s with
  | nil => cases hd
  | cons w rest ih =>
    cases w with
    | done => rfl
    | tick =>
      have hd' : Wake.done ∈ rest := by
        cases hd with
        | tail _ h => exact h
      simp [helperTask, ticksBeforeDone, ih hd']

theorem monitor_terminates_at_done (s : List Wake) (hd : Wake.done ∈ s) :
    monitor s = some (ticksBeforeDone s) := by
  induction s with
  | nil => cases hd
  | cons w rest ih =>
    cases w with
    | done => rfl
    | tick =>
      have hd' : Wake.done ∈ rest := by
        cases hd with
        | tail _ h => exact h
      simp [monitor, ticksBeforeDone, ih hd']

/-- C2: once the cancellation signal is raised, a `done` wakeup occurs
(the closed `ctx.Done()` channel) and at most the one buffered tick can
precede it; under those wakeups both the helper loop and the monitor loop
return at their first `done` wakeup, having performed at most one further
tick of bookkeeping — each terminates before its next tick rather than
looping forever. -/
theorem helper_monitor_cancelled (s : List Wake) (hd : Wake.done ∈ s)
    (hb : ticksBeforeDone s ≤ 1) :
    ∃ n, n ≤ 1 ∧ helperTask s = some n ∧ monitor s = some n :=
  ⟨ticksBeforeDone s, hb, helperTask_terminates_at_done s hd,
    monitor_terminates_at_done s hd⟩

/-- C2 witness: a pending tick followed by the cancellation wakeup. -/
theorem helper_monitor_cancelled_witness :
    ∃ n, n ≤ 1 ∧ helperTask [Wake.tick, Wake.done] = some n ∧
      monitor [Wake.tick, Wake.done] = some n :=
  helper_monitor_cancelled [Wake.tick, Wake.done] (by decide) (by decide)

end Demo

namespace Demo

/-!
## Task flow through the optimized pool (C3)

A worker's loop is a two-way `select`: on `ctx.Done()` it returns at once;
on a queue receive it processes the task and appends the result under the
mutex (on a receive from the closed, drained queue `ok` is false and the
worker returns). The model below starts a run with the whole submitted
sequence `T` in the buffered queue and lets `Stop` raise cancellation and
close the queue.

The channel is FIFO and delivers each element to exactly one worker, so a
receive removes the head of the queue; but processing and the mutex-guarded
append are separate later steps of the receiving worker, so a dequeued task
is first *in flight*, and concurrent workers may append their results in
any interleaving — results appear in completion order, not submission
order. A worker sitting at its `select` holds no in-flight task, so a
dequeue or an exit requires fewer in-flight tasks than live workers; a
worker that has received a task always appends its result before returning
to the `select`.

Nothing forces a worker to drain the queue after cancellation: the
`ctx.Done()` case may be selected while tasks are still queued, which is
what refutes C3 as stated.
-/

/-- Run-time state of the optimized pool's task flow. -/
structure RunState where
  queue : List Task
  inFlight : List Task
  results : List Result
  workersLive : Nat
  cancelled : Bool
  closed : Bool
deriving DecidableEq, Repr

/-- `GetResults`: a snapshot copy of the shared result slice. -/
def GetResults (s : RunState) : List Result := s.results

/-- The pool right after `ProcessTasks(T)` returned and `Start(n)` has its
`n` workers running: all of `T` is buffered in the queue. -/
def initRun (T : List Task) (n : Nat) : RunState := ⟨T, [], [], n, false, false⟩

/-- One scheduler step of the running pool. -/
inductive RunStep : RunState → RunState → Prop
  | dequeue (s : RunState) (t : Task) (q : List Task) (hq : s.queue = t :: q)
      (hw : s.inFlight.length < s.workersLive) :
      RunStep s { s with queue := q, inFlight := s.inFlight ++ [t] }
  | appendResult (s : RunState) (t : Task) (ht : t ∈ s.inFlight) :
      RunStep s { s with inFlight := s.inFlight.erase t, results := s.results ++ [t.Process] }
  | exitOnCancel (s : RunState) (hc : s.cancelled = true)
      (hw : s.inFlight.length < s.workersLive) :
      RunStep s { s with workersLive := s.workersLive - 1 }
  | exitOnClosed (s : RunState) (hcl : s.closed = true) (hq : s.queue = [])
      (hw : s.inFlight.length < s.workersLive) :
      RunStep s { s with workersLive := s.workersLive - 1 }
  | stopSignal (s : RunState) :
      RunStep s { s with cancelled := true, closed := true }

/-- Run states reachable from `initRun T n`. -/
inductive RunReach (T : List Task) (n : Nat) : RunState → Prop
  | init : RunReach T n (initRun T n)
  | step {s s' : RunState} : RunReach T n s → RunStep s s' → RunReach T n s'

theorem list_take_drop_cons {α : Type} (T q : List α) (t : α) (k : Nat)
    (h : T.drop k = t :: q) :
    T.take (k + 1) = T.take k ++ [t] ∧ T.drop (k + 1) = q ∧ k + 1 ≤ T.length := by
  induction k generalizing T with
  | zero =>
    rw [List.drop_zero] at h
    subst h
    exact ⟨rfl, rfl, by simp⟩
  | succ k ih =>
    cases T with
    | nil => simp at h
    | cons a T' =>
      rw [List.drop_succ_cons] at h
      obtain ⟨h1, h2, h3⟩ := ih T' h
      refine ⟨?_, ?_, ?_⟩
      · rw [List.take_succ_cons, List.take_succ_cons, h1]
        rfl
      · rw [List.drop_succ_cons]
        exact h2
      · simpa using by omega

/-- Conservation invariant of a run: the dequeued tasks are the FIFO head
of `T`, split — in some interleaving — between tasks whose result has been
appended (`done`, in append order) and tasks still in flight. -/
def RunInv (T : List Task) (s : RunState) : Prop :=
  ∃ k done, k ≤ T.length ∧
    s.queue = T.drop k ∧
    List.Perm (done ++ s.inFlight) (T.take k) ∧
    s.results = done.map Task.Process

theorem runStep_preserves_inv {T : List Task} {s s' : RunState} (hstep : RunStep s s')
    (ih : RunInv T s) : RunInv T s' := by
  obtain ⟨k, done, hk, hq, hperm, hres⟩ := ih
  cases hstep with
  | dequeue t q hqe hw =>
    obtain ⟨ht, hd, hlt⟩ := list_take_drop_cons T q t k (hq.symm.trans hqe)
    refine ⟨k + 1, done, hlt, hd.symm, ?_, hres⟩
    show List.Perm (done ++ (s.inFlight ++ [t])) (T.take (k + 1))
    rw [ht, ← List.append_assoc]
    exact hperm.append_right [t]
  | appendResult t htmem =>
    refine ⟨k, done ++ [t], hk, hq, ?_, ?_⟩
    · show List.Perm ((done ++ [t]) ++ s.inFlight.erase t) (T.take k)
      refine List.Perm.trans ?_ hperm
      rw [List.append_assoc]
      exact List.Perm.append_left done (List.perm_cons_erase htmem).symm
    · show s.results ++ [t.Process] = (done ++ [t]).map Task.Process
      rw [List.map_append, hres]
      rfl
  | exitOnCancel hc hw => exact ⟨k, done, hk, hq, hperm, hres⟩
  | exitOnClosed hcl hqe hw => exact ⟨k, done, hk, hq, hperm, hres⟩
  | stopSignal => exact ⟨k, done, hk, hq, hperm, hres⟩

theorem runReach_inv (T : List Task) (n : Nat) (s : RunState) (h : RunReach T n s) :
    RunInv T s := by
  induction h with
  | init => exact ⟨0, [], Nat.zero_le _, rfl, by simp [initRun], rfl⟩
  | step _ hstep ih => exact runStep_preserves_inv hstep ih

/-- C3 counterexample: with one task submitted and one worker, the worker
may select the `ctx.Done()` case of its loop as soon as `Stop` raises the
cancellation, exiting while the task is still queued; draining completes
(cancellation raised, no live workers, nothing in flight) with zero
results instead of one. -/
theorem results_length_counterexample :
    ¬ (∀ s : RunState, RunReach [⟨1, [2], OperationSum⟩] 1 s → s.cancelled = true →
        s.workersLive = 0 → s.inFlight = [] → (GetResults s).length = 1) := by
  intro hclaim
  have h1 : RunReach [⟨1, [2], OperationSum⟩] 1
      (⟨[⟨1, [2], OperationSum⟩], [], [], 1, true, true⟩ : RunState) :=
    RunReach.step RunReach.init (RunStep.stopSignal _)
  have h2 : RunReach [⟨1, [2], OperationSum⟩] 1
      (⟨[⟨1, [2], OperationSum⟩], [], [], 0, true, true⟩ : RunState) :=
    RunReach.step h1 (RunStep.exitOnCancel _ rfl (by decide))
  have := hclaim _ h2 rfl rfl rfl
  simp [GetResults] at this

/-- C3 amended: in every run the dequeued tasks are the FIFO head of `T`,
split between appended results and in-flight tasks, with the results a
permutation — completion order, not submission order — of the processed
tasks' outputs; each submitted task is processed at most once, so
`len(GetResults()) + inflight + len(queue) = len(T)`, the result count
never exceeds `len(T)`, and it equals `len(T)` precisely when the queue
was drained and nothing is left in flight. A worker exiting on
cancellation with tasks still queued (the counterexample) leaves the
count short. -/
theorem results_conservation (T : List Task) (n : Nat) (s : RunState)
    (h : RunReach T n s) :
    ∃ k done, k ≤ T.length ∧
      s.queue = T.drop k ∧
      List.Perm (done ++ s.inFlight) (T.take k) ∧
      GetResults s = done.map Task.Process ∧
      (GetResults s).length + s.inFlight.length + s.queue.length = T.length ∧
      ((GetResults s).length = T.length ↔ (s.queue = [] ∧ s.inFlight = [])) := by
  obtain ⟨k, done, hk, hq, hperm, hres⟩ := runReach_inv T n s h
  have hlen1 : done.length + s.inFlight.length = k := by
    have hpl := hperm.length_eq
    rw [List.length_append, List.length_take] at hpl
    omega
  have hlenr : (GetResults s).length = done.length := by
    simp [GetResults, hres]
  have hlenq : s.queue.length = T.length - k := by
    simp [hq]
  refine ⟨k, done, hk, hq, hperm, hres, by omega, ?_, ?_⟩
  · intro he
    have hqe : s.queue = [] := by
      rw [hq, show k = T.length by omega]
      exact List.drop_length T
    have hql : s.queue.length = 0 := by rw [hqe]; rfl
    refine ⟨hqe, List.length_eq_zero.mp ?_⟩
    omega
  · rintro ⟨hq0, hf0⟩
    have h1 : s.queue.length = 0 := by rw [hq0]; rfl
    have h2 : s.inFlight.length = 0 := by rw [hf0]; rfl
    omega

/-- The single task of the C3 example run. -/
def sampleTask : Task := ⟨1, [2], OperationSum⟩

/-- The state after the worker received and fully processed `sampleTask`. -/
def runDrainedState : RunState := ⟨[], [], [Task.Process sampleTask], 1, false, false⟩

/-- A concrete run reaching `runDrainedState`: one dequeue, then the
mutex-guarded append of the processed result. -/
theorem runReach_drained_example : RunReach [sampleTask] 1 runDrainedState := by
  have h1 : RunReach [sampleTask] 1 (⟨[], [sampleTask], [], 1, false, false⟩ : RunState) :=
    RunReach.step RunReach.init (RunStep.dequeue _ sampleTask [] rfl (by decide))
  have h2 := RunStep.appendResult (⟨[], [sampleTask], [], 1, false, false⟩ : RunState)
    sampleTask (by simp)
  exact RunReach.step h1 (by simpa [runDrainedState] using h2)

/-- C3 witness for the amended theorem: the run that dequeues and
processes the single submitted task. -/
theorem results_conservation_witness :
    ∃ k done, k ≤ [sampleTask].length ∧
      runDrainedState.queue = [sampleTask].drop k ∧
      List.Perm (done ++ runDrainedState.inFlight) ([sampleTask].take k) ∧
      GetResults runDrainedState = done.map Task.Process ∧
      (GetResults runDrainedState).length + runDrainedState.inFlight.length +
        runDrainedState.queue.length = [sampleTask].length ∧
      ((GetResults runDrainedState).length = [sampleTask].length ↔
        (runDrainedState.queue = [] ∧ runDrainedState.inFlight = [])) :=
  results_conservation [sampleTask] 1 runDrainedState runReach_drained_example

end Demo

namespace Demo

/-!
## `Stop()` and `ProcessTasks` of the optimized pool (C4, C5)

`Stop()` is literally `w.cancel(); close(w.taskQueue); w.wg.Wait()`.
`context.CancelFunc` is idempotent (a second call is a no-op), but Go's
`close` on an already-closed channel panics; `wg.Wait` does not change the
state modelled here. `Stop` is therefore embedded as a fallible function.

`ProcessTasks(tasks)` loops over the tasks; for each it `select`s between
`ctx.Done()` (return) and a send into the buffered queue. Go's `select`
picks pseudo-randomly among the ready cases, and a send on a *closed*
channel counts as ready — proceeding with it panics. `Stop()` closes
`taskQueue` right after cancelling, so past `Stop()` both flags hold: the
`Done` case is always ready (the call can never stay blocked), the send
case is also ready, and choosing the send faults. A scheduler choice list
decides which ready case each `select` takes; with the context live and
the queue full and open, no case is ready and the send blocks with no
second wakeup source.
-/

/-- The faults the `Stop` and `ProcessTasks` embeddings can raise. -/
inductive ChanFault where
  | closeOfClosedChannel : ChanFault
deriving DecidableEq, Repr

/-- The part of the pool state `Stop` touches. -/
structure StopState where
  cancelled : Bool
  queueClosed : Bool
deriving DecidableEq, Repr

/-- `w.cancel()`: raises the broadcast cancellation; a second call is a
no-op. -/
def cancelCtx (s : StopState) : StopState := { s with cancelled := true }

/-- `close(w.taskQueue)`: panics if the channel is already closed. -/
def closeTaskQueue (s : StopState) : Except ChanFault StopState :=
  if s.queueClosed then .error .closeOfClosedChannel
  else .ok { s with queueClosed := true }

/-- `Stop()` from the optimized worker: cancel, then close the queue
(`wg.Wait` leaves this state unchanged). -/
def Stop (s : StopState) : Except ChanFault StopState :=
  closeTaskQueue (cancelCtx s)

/-- C4 counterexample: from the fresh pool the first `Stop` succeeds, but
a second call to `Stop` after the first has returned panics with a
close-of-closed-channel fault — `Stop` is not idempotent. -/
theorem stop_idempotent_counterexample :
    Stop ⟨false, false⟩ = .ok ⟨true, true⟩ ∧
    Stop ⟨true, true⟩ = .error .closeOfClosedChannel :=
  ⟨rfl, rfl⟩

/-- C4 amended: the cancellation broadcast alone is idempotent (a second
`cancel` is a no-op), and a single `Stop` from any state with the queue
still open succeeds, signalling cancellation and closing the queue; but
`Stop` itself is not idempotent — from any state with the queue already
closed (in particular after a first `Stop`) it faults by double-closing
the task queue. -/
theorem stop_single_call_contract (s : StopState) :
    cancelCtx (cancelCtx s) = cancelCtx s ∧
    Stop { s with queueClosed := false } = .ok ⟨true, true⟩ ∧
    Stop { s with queueClosed := true } = .error .closeOfClosedChannel := by
  refine ⟨rfl, ?_, rfl⟩
  show closeTaskQueue ⟨true, false⟩ = .ok ⟨true, true⟩
  rfl

/-- Scheduler choice for one `select` of `ProcessTasks` when both cases
are ready: `true` takes the queue send, `false` takes `ctx.Done()`. -/
abbrev SubmitChoice := Bool

/-- Outcome of `ProcessTasks`: the final queue content, plus — when the
loop ran the whole sequence — a normal return, or an early clean return
via `ctx.Done()`, or a block on a full open queue with no cancellation to
wake it, or the send-on-closed-channel panic. -/
inductive SubmitOutcome where
  | completed : List Task → SubmitOutcome
  | abortedOnDone : List Task → SubmitOutcome
  | blockedOnFullQueue : List Task → List Task → SubmitOutcome
  | panickedOnClosedSend : List Task → SubmitOutcome
deriving DecidableEq, Repr

/-- Queue content at the end of a `ProcessTasks` run. -/
def SubmitOutcome.queueOf : SubmitOutcome → List Task
  | .completed q => q
  | .abortedOnDone q => q
  | .blockedOnFullQueue q _ => q
  | .panickedOnClosedSend q => q

/-- Whether the `ProcessTasks` call stopped running promptly — normally,
via the cancellation case, or by faulting — rather than staying blocked. -/
def SubmitOutcome.notBlocked : SubmitOutcome → Bool
  | .blockedOnFullQueue _ _ => false
  | _ => true

/-- Whether the `ProcessTasks` call returned cleanly: a normal completion
or the `ctx.Done()` abort, with no fault and no block. -/
def SubmitOutcome.cleanReturn : SubmitOutcome → Bool
  | .completed _ => true
  | .abortedOnDone _ => true
  | _ => false

/-- `ProcessTasks` from the optimized worker, run against a queue with
capacity `cap` and current content `q`, with the cancellation and
queue-closed flags fixed (past `Stop()` both are `true`) and a scheduler
choice list for the `select`s where both cases are ready. The send case is
ready when the queue is closed (choosing it panics) or has free space;
`ctx.Done()` is ready when cancelled; an exhausted choice list stands for
a scheduler that takes the `Done` case. -/
def ProcessTasks (cancelled closed : Bool) (cap : Nat) :
    List SubmitChoice → List Task → List Task → SubmitOutcome
  | _, [], q => .completed q
  | choices, t :: ts, q =>
    if cancelled then
      match choices with
      | [] => .abortedOnDone q
      | c :: rest =>
        if c && (closed || decide (q.length < cap)) then
          if closed then .panickedOnClosedSend q
          else ProcessTasks cancelled closed cap rest ts (q ++ [t])
        else .abortedOnDone q
    else
      if closed then .panickedOnClosedSend q
      else if q.length < cap then ProcessTasks cancelled closed cap choices ts (q ++ [t])
      else .blockedOnFullQueue q (t :: ts)

theorem processTasks_queue_extends (cancelled closed : Bool) (cap : Nat) :
    ∀ (choices : List SubmitChoice) (ts q : List Task),
      ∃ k, k ≤ ts.length ∧
        (ProcessTasks cancelled closed cap choices ts q).queueOf = q ++ ts.take k ∧
        (ProcessTasks cancelled closed cap choices ts q = .completed (q ++ ts.take k) →
          k = ts.length) := by
  intro choices ts
  induction ts generalizing choices with
  | nil =>
    intro q
    exact ⟨0, by simp, by simp [ProcessTasks, SubmitOutcome.queueOf], by simp⟩
  | cons t ts ih =>
    intro q
    by_cases hc : cancelled
    · subst hc
      cases choices with
      | nil =>
        exact ⟨0, by simp, by simp [ProcessTasks, SubmitOutcome.queueOf],
          by simp [ProcessTasks]⟩
      | cons c rest =>
        by_cases hcl : closed
        · subst hcl
          cases c with
          | true =>
            refine ⟨0, by simp, by simp [ProcessTasks, SubmitOutcome.queueOf], ?_⟩
            intro hdone
            rw [show ProcessTasks true true cap (true :: rest) (t :: ts) q
                = .panickedOnClosedSend q from rfl] at hdone
            cases hdone
          | false =>
            refine ⟨0, by simp, by simp [ProcessTasks, SubmitOutcome.queueOf], ?_⟩
            intro hdone
            rw [show ProcessTasks true true cap (false :: rest) (t :: ts) q
                = .abortedOnDone q from rfl] at hdone
            cases hdone
        · rw [Bool.not_eq_true] at hcl
          subst hcl
          cases c with
          | false =>
            refine ⟨0, by simp, by simp [ProcessTasks, SubmitOutcome.queueOf], ?_⟩
            intro hdone
            rw [show ProcessTasks true false cap (false :: rest) (t :: ts) q
                = .abortedOnDone q from rfl] at hdone
            cases hdone
          | true =>
            by_cases hroom : q.length < cap
            · obtain ⟨k, hk, hq, hcomp⟩ := ih rest (q ++ [t])
              refine ⟨k + 1, by simpa using hk, ?_, ?_⟩
              · rw [show ProcessTasks true false cap (true :: rest) (t :: ts) q
                    = ProcessTasks true false cap rest ts (q ++ [t])
                    by simp [ProcessTasks, hroom]]
                rw [hq, List.take_succ_cons, List.append_assoc]
                rfl
              · intro hdone
                rw [show ProcessTasks true false cap (true :: rest) (t :: ts) q
                    = ProcessTasks true false cap rest ts (q ++ [t])
                    by simp [ProcessTasks, hroom]] at hdone
                rw [List.take_succ_cons,
                  show q ++ t :: ts.take k = (q ++ [t]) ++ ts.take k by simp] at hdone
                have := hcomp hdone
                simp [this]
            · refine ⟨0, by simp, ?_, ?_⟩
              · simp [ProcessTasks, hroom, SubmitOutcome.queueOf]
              · intro hdone
                rw [show ProcessTasks true false cap (true :: rest) (t :: ts) q
                    = .abortedOnDone q by simp [ProcessTasks, hroom]] at hdone
                cases hdone
    · rw [Bool.not_eq_true] at hc
      subst hc
      by_cases hcl : closed
      · subst hcl
        refine ⟨0, by simp, by simp [ProcessTasks, SubmitOutcome.queueOf], ?_⟩
        intro hdone
        rw [show ProcessTasks false true cap choices (t :: ts) q
            = .panickedOnClosedSend q from rfl] at hdone
        cases hdone
      · rw [Bool.not_eq_true] at hcl
        subst hcl
        by_cases hroom : q.length < cap
        · obtain ⟨k, hk, hq, hcomp⟩ := ih choices (q ++ [t])
          refine ⟨k + 1, by simpa using hk, ?_, ?_⟩
          · rw [show ProcessTasks false false cap choices (t :: ts) q
                = ProcessTasks false false cap choices ts (q ++ [t])
                by simp [ProcessTasks, hroom]]
            rw [hq, List.take_succ_cons, List.append_assoc]
            rfl
          · intro hdone
            rw [show ProcessTasks false false cap choices (t :: ts) q
                = ProcessTasks false false cap choices ts (q ++ [t])
                by simp [ProcessTasks, hroom]] at hdone
            rw [List.take_succ_cons,
              show q ++ t :: ts.take k = (q ++ [t]) ++ ts.take k by simp] at hdone
            have := hcomp hdone
            simp [this]
        · refine ⟨0, by simp, ?_, ?_⟩
          · simp [ProcessTasks, hroom, SubmitOutcome.queueOf]
          · intro hdone
            rw [show ProcessTasks false false cap choices (t :: ts) q
                = .blockedOnFullQueue q (t :: ts) by simp [ProcessTasks, hroom]] at hdone
            cases hdone

theorem processTasks_cancelled_not_blocked (closed : Bool) (cap : Nat) :
    ∀ (choices : List SubmitChoice) (ts q : List Task),
      (ProcessTasks true closed cap choices ts q).notBlocked = true := by
  intro choices ts
  induction ts generalizing choices with
  | nil =>
    intro q
    rfl
  | cons t ts ih =>
    intro q
    cases choices with
    | nil => rfl
    | cons c rest =>
      by_cases hcl : closed
      · subst hcl
        cases c with
        | true => rfl
        | false => rfl
      · rw [Bool.not_eq_true] at hcl
        subst hcl
        cases c with
        | false => rfl
        | true =>
          by_cases hroom : q.length < cap
          · rw [show ProcessTasks true false cap (true :: rest) (t :: ts) q
                = ProcessTasks true false cap rest ts (q ++ [t])
                by simp [ProcessTasks, hroom]]
            exact ih rest (q ++ [t])
          · rw [show ProcessTasks true false cap (true :: rest) (t :: ts) q
                = .abortedOnDone q by simp [ProcessTasks, hroom]]
            rfl

theorem processTasks_done_choice_clean (closed : Bool) (cap : Nat) :
    ∀ (ts q : List Task), (ProcessTasks true closed cap [] ts q).cleanReturn = true := by
  intro ts q
  cases ts with
  | nil => rfl
  | cons t ts => rfl

/-- C5 counterexample: past `Stop()` the cancellation has fired and the
task queue is closed; at the very first `select` the send case is ready
too, and a scheduler that picks it makes `ProcessTasks` panic with a
send-on-closed-channel fault instead of the claimed clean abort. -/
theorem processTasks_send_on_closed_counterexample :
    ¬ (∀ (cap : Nat) (choices : List SubmitChoice) (ts q : List Task),
        (ProcessTasks true true cap choices ts q).cleanReturn = true) := by
  intro h
  exact absurd (h 10 [true] [⟨1, [2], OperationSum⟩] []) (by decide)

/-- C5 amended: `ProcessTasks` enqueues tasks in submission order — the
queue it leaves is the old content followed by a prefix of the task
sequence, and a normal completion enqueues the whole sequence; once the
cancellation signal is raised it never stays blocked, and whenever the
scheduler resolves its `select`s to the ready `ctx.Done()` case it
returns promptly as a clean abort; but a clean, fault-free return is not
guaranteed, because the `select` may instead pick the send on the queue
that `Stop()` has closed, which panics (the counterexample). -/
theorem processTasks_cancellable (cancelled closed : Bool) (cap : Nat)
    (choices : List SubmitChoice) (ts q : List Task) :
    (∃ k, k ≤ ts.length ∧
      (ProcessTasks cancelled closed cap choices ts q).queueOf = q ++ ts.take k ∧
      (ProcessTasks cancelled closed cap choices ts q = .completed (q ++ ts.take k) →
        k = ts.length)) ∧
    (ProcessTasks true closed cap choices ts q).notBlocked = true ∧
    (ProcessTasks true closed cap [] ts q).cleanReturn = true :=
  ⟨processTasks_queue_extends cancelled closed cap choices ts q,
    processTasks_cancelled_not_blocked closed cap choices ts q,
    processTasks_done_choice_clean closed cap ts q⟩

end Demo
